import Mathlib

/-!
Verification of the iCalendar content-line parser (ics/parse.py).

The development shallowly embeds the three pipeline stages of the source:
line unfolding (unfold_lines), single-line grammar parsing
(ContentLine.parse, built on a pyparsing grammar), and BEGIN/END nesting
(Container.parse and the top-level parse), together with the serializer
(ContentLine.__str__) and the equality methods (ContentLine.__eq__ and the
list equality inherited by Container).

The pyparsing combinators used by the source are modelled directly:
every token first skips the default whitespace characters " \n\t\r"
(ParserElement.DEFAULT_WHITE_CHARS; preParse in pyparsing's core), Word
takes the maximal run of its character set, QuotedString with escChar
matches up to the first unescaped closing quote and keeps the quotes
(unquoteResults=False), ZeroOrMore backtracks a failed iteration without
consuming input, Optional backtracks on failure, and
SkipTo(StringEnd(), include=True) captures the whole remainder after the
whitespace skip.  Loops carry an explicit fuel argument so that all
definitions compute by kernel reduction; the entry points instantiate the
fuel with the length of the input, which is always sufficient.
-/

namespace IcsParse

/-- The source defines a single exception type, ParseError; every failure in
parse.py (grammar failures and BEGIN/END mismatches alike) raises it with a
message string.  No StructureError class exists in the code. -/
inductive PyError where
  | parseError (msg : String)
deriving DecidableEq, Repr

/-- A ContentLine: one property of calendar content, with its name, its
ordered parameter dictionary (modelled as an association list in insertion
order, mirroring collections.OrderedDict) and its value. -/
structure ContentLine where
  name : String
  params : List (String × List String)
  value : String
deriving DecidableEq, Repr

/-- Python str.upper: uppercase every character.  The names this parser
uppercases are ASCII (the grammar's word charset is a subset of ASCII),
where Char.toUpper agrees with Python; the map is written over the
character list so that it computes by kernel reduction. -/
def pyUpper (s : String) : String :=
  (s.data.map Char.toUpper).asString

/-- Model of ContentLine.__init__: the name is uppercased (name.upper()),
params and value are stored as given (an absent params argument is the
empty dictionary). -/
def ContentLine.init (name : String) (params : List (String × List String))
    (value : String) : ContentLine :=
  ⟨pyUpper name, params, value⟩

/-- Lookup in an association list, first binding wins: Python dict lookup
for lists whose keys are distinct. -/
def dictLookup (k : String) : List (String × List String) → Option (List String)
  | [] => none
  | (k', v) :: rest => if k' = k then some v else dictLookup k rest

/-- Python dict equality for association lists with distinct keys: the two
sides have the same keys and the same value at every key.  This models the
comparison self.params == dict(other.params) in ContentLine.__eq__: the
right operand is converted to a plain dict, so the comparison is
order-insensitive (an OrderedDict compared with a plain dict falls back to
dict equality). -/
def dictEq (xs ys : List (String × List String)) : Bool :=
  xs.all (fun p => dictLookup p.1 ys == some p.2) &&
  ys.all (fun p => dictLookup p.1 xs == some p.2)

/-- Model of ContentLine.__eq__: names equal, parameter dictionaries equal
as dicts (order-insensitively, see dictEq), values equal. -/
def ContentLine.eq (a b : ContentLine) : Bool :=
  a.name == b.name && dictEq a.params b.params && a.value == b.value

/-- One step of building an OrderedDict from key/value pairs: an existing
key keeps its position and gets the new value, a new key is appended. -/
def odInsert (m : List (String × List String)) (k : String) (v : List String) :
    List (String × List String) :=
  if m.any (fun p => p.1 == k) then
    m.map (fun p => if p.1 == k then (k, v) else p)
  else m ++ [(k, v)]

/-- collections.OrderedDict built from a list of key/value pairs. -/
def odOfList (ps : List (String × List String)) : List (String × List String) :=
  ps.foldl (fun m p => odInsert m p.1 p.2) []

/-! The pyparsing grammar of ContentLine.parse. -/

/-- pyparsing ParserElement.DEFAULT_WHITE_CHARS, skipped before every
token. -/
def ppWhite (c : Char) : Bool :=
  c = ' ' || c = '\n' || c = '\t' || c = '\r'

/-- Membership in pyparsing's printables: the ASCII printing characters
other than space. -/
def printableChar (c : Char) : Bool :=
  33 ≤ c.toNat && c.toNat ≤ 126

/-- Character set of wordBNF: printables plus space, newline, tab and
carriage return, excluding the delimiter characters of the grammar
(excludeChars of the Word). -/
def wordCharCL (c : Char) : Bool :=
  (printableChar c || c = ' ' || c = '\n' || c = '\t' || c = '\r') &&
  !(c = '=' || c = ';' || c = ':' || c = ',' || c = '"')

/-- Model of wordBNF: skip leading whitespace, then take the maximal
nonempty run of word characters; fail when the run is empty. -/
def parseWordCL (s : List Char) : Option (List Char × List Char) :=
  let s1 := s.dropWhile ppWhite
  let tok := s1.takeWhile wordCharCL
  if tok.isEmpty then none else some (tok, s1.dropWhile wordCharCL)

/-- Scan the body of a quoted string after the opening quote.  Content is
either an escape (backslash followed by any character) or any character
other than the quote and the backslash; the scan ends at the first
unescaped closing quote and fails if none exists.  This is the regular
expression QuotedString compiles for quoteChar '"', escChar backslash and
multiline=True.  The returned content keeps escapes verbatim
(unquoteResults=False). -/
def scanQuotedCL : List Char → Option (List Char × List Char)
  | [] => none
  | '"' :: rest => some ([], rest)
  | '\\' :: c :: rest =>
    match scanQuotedCL rest with
    | some (cs, r) => some ('\\' :: c :: cs, r)
    | none => none
  | ['\\'] => none
  | c :: rest =>
    match scanQuotedCL rest with
    | some (cs, r) => some (c :: cs, r)
    | none => none

/-- Model of multilineQuoteBNF: skip whitespace, require an opening quote,
scan to the matching quote; the token retains both quotes. -/
def parseQuotedCL (s : List Char) : Option (List Char × List Char) :=
  match s.dropWhile ppWhite with
  | c :: rest =>
    if c = '"' then
      match scanQuotedCL rest with
      | some (cs, r) => some ('"' :: (cs ++ ['"']), r)
      | none => none
    else none
  | [] => none

/-- Model of paramValueBNF = Or([multilineQuoteBNF, wordBNF]).  The two
alternatives never both match (after the whitespace skip a quoted string
starts with a quote, which the word charset excludes), so pyparsing's
longest-match Or reduces to trying the quoted string first. -/
def parseParamValue (s : List Char) : Option (List Char × List Char) :=
  match parseQuotedCL s with
  | some r => some r
  | none => parseWordCL s

/-- The tail of delimitedList(paramValueBNF, delim=','): zero or more
occurrences of a suppressed comma followed by a value.  A failed iteration
consumes nothing (pyparsing backtracks it), ending the loop.  The fuel
bounds the number of iterations; callers pass at least the length of the
input, and every iteration consumes at least the comma, so the fuel never
runs out. -/
def valuesLoop : Nat → List Char → List (List Char) →
    (List (List Char) × List Char)
  | 0, s, acc => (acc.reverse, s)
  | fuel + 1, s, acc =>
    match s.dropWhile ppWhite with
    | c :: s2 =>
      if c = ',' then
        match parseParamValue s2 with
        | some (v, r) => valuesLoop fuel r (v :: acc)
        | none => (acc.reverse, s)
      else (acc.reverse, s)
    | [] => (acc.reverse, s)

/-- Model of paramBNF: a word (the parameter name), a suppressed equals
sign, then a comma-delimited list of parameter values.  Returns the
parameter name with its value list, and the remaining input. -/
def parseParam (fuel : Nat) (s : List Char) :
    Option ((List Char × List (List Char)) × List Char) :=
  match parseWordCL s with
  | none => none
  | some (k, r1) =>
    match r1.dropWhile ppWhite with
    | c :: r2 =>
      if c = '=' then
        match parseParamValue r2 with
        | none => none
        | some (v, r3) =>
          match valuesLoop fuel r3 [] with
          | (vs, r4) => some ((k, v :: vs), r4)
      else none
    | [] => none

/-- Model of paramsBNF = Group(ZeroOrMore(Suppress(';') + paramBNF)): each
iteration matches a semicolon and a parameter; a failed iteration (for
example a parameter with no equals sign) backtracks to before its
semicolon and ends the loop. -/
def paramsLoop : Nat → List Char →
    List (List Char × List (List Char)) →
    (List (List Char × List (List Char)) × List Char)
  | 0, s, acc => (acc.reverse, s)
  | fuel + 1, s, acc =>
    match s.dropWhile ppWhite with
    | c :: s2 =>
      if c = ';' then
        match parseParam fuel s2 with
        | some (p, r) => paramsLoop fuel r (p :: acc)
        | none => (acc.reverse, s)
      else (acc.reverse, s)
    | [] => (acc.reverse, s)

/-- Suppress(Literal(':')): skip whitespace and require a colon. -/
def expectColon (s : List Char) : Option (List Char) :=
  match s.dropWhile ppWhite with
  | c :: r => if c = ':' then some r else none
  | [] => none

/-- Model of the whole lineBNF under parseString(..., parseAll=True):
Optional(nameBNF + paramsBNF), a suppressed colon, then
SkipTo(StringEnd(), include=True), which after the standard whitespace
skip captures everything up to the end of the string.  The Optional
backtracks only when the name fails (the params loop never fails); once
the name matched, a missing colon fails the whole line, as in pyparsing,
where And does not backtrack across its elements. -/
def lineParse (fuel : Nat) (s : List Char) :
    Option (Option (List Char × List (List Char × List (List Char))) × List Char) :=
  match parseWordCL s with
  | some (n, r1) =>
    match paramsLoop fuel r1 [] with
    | (ps, r2) =>
      match expectColon r2 with
      | some r3 => some (some (n, ps), r3.dropWhile ppWhite)
      | none => none
  | none =>
    match expectColon s with
    | some r3 => some (none, r3.dropWhile ppWhite)
    | none => none

/-- Characters stripped from the end of the value: value.rstrip(' \n\t\r')
in ContentLine.parse. -/
def rstripChar (c : Char) : Bool :=
  c = ' ' || c = '\n' || c = '\t' || c = '\r'

/-- Python value.rstrip(' \n\t\r') on a character list. -/
def pyRstrip (s : List Char) : List Char :=
  (s.reverse.dropWhile rstripChar).reverse

/-- Model of the Python membership test ':' in line. -/
def pyContains (line : String) (c : Char) : Bool :=
  line.data.contains c

/-- Model of ContentLine.parse: the fast-path check that the line contains
a colon, then the pyparsing grammar.  One grammar capture (no name and no
params) gives an empty name; the full capture builds the OrderedDict from
the parameter groups, flattening each group into its name and value list.
The two-capture branch of the source is unreachable, because the params
Group is present (possibly empty) whenever the name matched.  The grammar
always captures the value, which is right-stripped, and the record is
built by the constructor (which uppercases the name). -/
def ContentLine.parse (line : String) : Except PyError ContentLine :=
  if !(pyContains line ':') then
    .error (.parseError ("No ':' in line '" ++ line ++ "'"))
  else
    match lineParse (line.data.length + 1) line.data with
    | none => .error (.parseError ("Unable to parse " ++ line))
    | some (none, v) =>
      .ok (ContentLine.init "" [] (pyRstrip v).asString)
    | some (some (n, ps), v) =>
      .ok (ContentLine.init n.asString
        (odOfList (ps.map (fun p => (p.1.asString, p.2.map List.asString))))
        (pyRstrip v).asString)

/-- Model of tokenize_line: parse every logical line in order; a
ParseError propagates at the line that raises it, as when the lazy
generator of the source is drained. -/
def tokenize_line : List String → Except PyError (List ContentLine)
  | [] => .ok []
  | l :: ls =>
    match ContentLine.parse l with
    | .error e => .error e
    | .ok cl =>
      match tokenize_line ls with
      | .error e => .error e
      | .ok cls => .ok (cl :: cls)

/-! Serialization: ContentLine.__str__. -/

/-- Python ','.join. -/
def joinComma : List String → String
  | [] => ""
  | [v] => v
  | v :: vs => v ++ "," ++ joinComma vs

/-- The params_str accumulation loop of ContentLine.__str__: one
";name=value1,value2,..." piece per parameter, in stored order. -/
def paramsStr : List (String × List String) → String
  | [] => ""
  | p :: ps => ";" ++ p.1 ++ "=" ++ joinComma p.2 ++ paramsStr ps

/-- Model of ContentLine.__str__: name, the parameter pieces, a colon, and
the value, concatenated. -/
def ContentLine.render (cl : ContentLine) : String :=
  cl.name ++ paramsStr cl.params ++ ":" ++ cl.value

/-! Character-level views of the serializer output and token-shape
predicates, used to state and prove the round-trip property. -/

/-- Character-level view of Python ','.join. -/
def joinCommaL : List String → List Char
  | [] => []
  | [v] => v.data
  | v :: vs => v.data ++ ',' :: joinCommaL vs

/-- Character-level view of the value-list tail: a comma before each
further value. -/
def moreValsL : List String → List Char
  | [] => []
  | v :: vs => ',' :: v.data ++ moreValsL vs

/-- Character-level view of the params_str pieces of the serializer. -/
def paramsStrL : List (String × List String) → List Char
  | [] => []
  | p :: ps => ';' :: p.1.data ++ '=' :: joinCommaL p.2 ++ paramsStrL ps

/-- Fuel measure for the parameter section: one unit per parameter plus
one per parameter value; the parsing loops never iterate more often than
this on a rendered parameter section. -/
def weight : List (String × List String) → Nat
  | [] => 0
  | p :: ps => 1 + p.2.length + weight ps

/-- The first character, if any, is not a pyparsing whitespace character
(such a character would be consumed by the whitespace skip in front of a
token instead of becoming part of it). -/
def headNotWhite (l : List Char) : Bool :=
  match l with
  | [] => true
  | c :: _ => !ppWhite c

/-- The last character, if any, is not removed by the right-strip the
parser applies to the value. -/
def lastNotRstrip (l : List Char) : Bool :=
  match l.getLast? with
  | none => true
  | some c => !rstripChar c

/-- A string round-trips through the word grammar verbatim exactly when it
is a nonempty run of word characters that does not begin with a skippable
whitespace character. -/
def goodWordB (t : List Char) : Bool :=
  !t.isEmpty && t.all wordCharCL && headNotWhite t

/-! The container builder: Container.parse and the top-level parse. -/

/-- A node of the parse tree: either a ContentLine leaf or a Container (a
named list of child nodes). -/
inductive Node where
  | line (cl : ContentLine)
  | container (name : String) (items : List Node)
deriving Repr

/-- Model of Container.parse: consume tokenized lines one at a time from
the shared stream (threaded here as the returned remainder).  A BEGIN
record opens a recursive child container, an END record with the wrong
value raises ParseError with the expected and the actual name, a matching
END completes the container (the END record itself is discarded), any
other record is appended as a leaf.  When the stream runs out before a
matching END the loop simply ends and the container built so far is
returned: the source raises nothing in that case.  The fuel decreases at
every consumed record; the entry points pass the stream length, which is
always sufficient, and the fuel-zero branch on a nonempty stream is never
taken. -/
def Container.parseF : Nat → String → List Node → List ContentLine →
    Except PyError (Node × List ContentLine)
  | _, name, acc, [] => .ok (.container name acc.reverse, [])
  | 0, name, acc, ls => .ok (.container name acc.reverse, ls)
  | fuel + 1, name, acc, l :: rest =>
    if l.name = "BEGIN" then
      match Container.parseF fuel l.value [] rest with
      | .error e => .error e
      | .ok (c, rest2) => Container.parseF fuel name (c :: acc) rest2
    else if l.name = "END" then
      if l.value ≠ name then
        .error (.parseError ("Expected END:" ++ name ++ ", got END:" ++ l.value))
      else .ok (.container name acc.reverse, rest)
    else Container.parseF fuel name (.line l :: acc) rest

/-- Model of the top-level parse loop: a BEGIN record opens a container
consuming from the same stream, every other record stays a top-level
leaf. -/
def parseF : Nat → List Node → List ContentLine → Except PyError (List Node)
  | _, acc, [] => .ok acc.reverse
  | 0, acc, _ => .ok acc.reverse
  | fuel + 1, acc, l :: rest =>
    if l.name = "BEGIN" then
      match Container.parseF fuel l.value [] rest with
      | .error e => .error e
      | .ok (c, rest2) => parseF fuel (c :: acc) rest2
    else parseF fuel (.line l :: acc) rest

/-- Model of parse(tokenized_lines): the top-level driver over a tokenized
record stream. -/
def parse_records (ls : List ContentLine) : Except PyError (List Node) :=
  parseF ls.length [] ls

/-! Node equality as Python computes it. -/

mutual

/-- Equality between nodes as Python evaluates the == operator: two
ContentLines use ContentLine.__eq__; two Containers use the list equality
that Container inherits (a length check, then elementwise comparison),
which never consults the container names; comparing a ContentLine with a
Container is undefined (the reflected ContentLine.__eq__ reads a params
attribute the Container does not have and raises AttributeError), modelled
as none. -/
def nodeEq : Node → Node → Option Bool
  | .line a, .line b => some (ContentLine.eq a b)
  | .container _ xs, .container _ ys =>
    if xs.length = ys.length then nodesEq xs ys else some false
  | _, _ => none

/-- Elementwise comparison of two child lists of equal length, stopping at
the first unequal pair, propagating an undefined comparison.  The
unequal-length case is unreachable under the length guard in nodeEq. -/
def nodesEq : List Node → List Node → Option Bool
  | [], [] => some true
  | a :: as', b :: bs' =>
    match nodeEq a b with
    | none => none
    | some false => some false
    | some true => nodesEq as' bs'
  | _, _ => some false

end

/-! The line unfolder: unfold_lines. -/

/-- Python str.isspace character class restricted to ASCII (the inputs of
this parser); a line is blank when len(line.strip()) == 0, that is when
every character is whitespace. -/
def pySpace (c : Char) : Bool :=
  c = ' ' || c = '\t' || c = '\n' || c = '\r' || c = '\x0b' || c = '\x0c'

/-- Model of the blank-line test len(line.strip()) == 0. -/
def isBlank (l : String) : Bool :=
  l.data.all pySpace

/-- Python line.strip(chr 13): remove carriage returns from both ends. -/
def stripCR (l : String) : String :=
  (((l.data.dropWhile (fun c => c = '\r')).reverse.dropWhile
    (fun c => c = '\r')).reverse).asString

/-- Model of unfold_lines with its accumulator current_line made explicit
(the source initializes it to the empty string).  A blank line is skipped;
with an empty accumulator the line (CR-stripped) starts a new logical
line; a line starting with a space character is appended (without that
space, CR-stripped) to the accumulator; otherwise the accumulator is
emitted and the line starts a new one; a nonempty accumulator is emitted
at the end of input. -/
def unfold_lines : List String → String → List String
  | [], current => if current = "" then [] else [current]
  | l :: rest, current =>
    if isBlank l then unfold_lines rest current
    else if current = "" then unfold_lines rest (stripCR l)
    else if l.data.head? = some ' ' then
      unfold_lines rest (current ++ stripCR (l.data.drop 1).asString)
    else current :: unfold_lines rest (stripCR l)

/-- Specification-side predicate for claim C7/C9 hypotheses: no line of the
input is a fold continuation, i.e. no nonblank line that follows an
earlier nonblank line starts with a space.  The boolean argument records
whether a nonblank line has been seen. -/
def noContinuation : List String → Bool → Bool
  | [], _ => true
  | l :: rest, seen =>
    if isBlank l then noContinuation rest seen
    else if seen && l.data.head? = some ' ' then false
    else noContinuation rest true

/-! Auxiliary lemmas. -/

theorem toList_append (s t : String) : (s ++ t).data = s.data ++ t.data := by
  simp [String.data, String.data_append]

theorem takeWhile_append_all {p : Char → Bool} {t rest : List Char}
    (h : ∀ c ∈ t, p c = true) (hr : ∀ c, rest.head? = some c → p c = false) :
    (t ++ rest).takeWhile p = t := by
  induction t with
  | nil =>
    cases rest with
    | nil => rfl
    | cons c r => simp [List.takeWhile_cons, hr c rfl]
  | cons a t ih =>
    simp [List.takeWhile_cons, h a (List.mem_cons_self a t),
      ih (fun c hc => h c (List.mem_cons_of_mem _ hc))]

theorem dropWhile_append_all {p : Char → Bool} {t rest : List Char}
    (h : ∀ c ∈ t, p c = true) (hr : ∀ c, rest.head? = some c → p c = false) :
    (t ++ rest).dropWhile p = rest := by
  induction t with
  | nil =>
    cases rest with
    | nil => rfl
    | cons c r => simp [List.dropWhile_cons, hr c rfl]
  | cons a t ih =>
    simp [List.dropWhile_cons, h a (List.mem_cons_self a t),
      ih (fun c hc => h c (List.mem_cons_of_mem _ hc))]

theorem dropWhile_head_false {p : Char → Bool} {l : List Char}
    (h : ∀ c, l.head? = some c → p c = false) : l.dropWhile p = l := by
  cases l with
  | nil => rfl
  | cons c r => simp [List.dropWhile_cons, h c rfl]

/-! Claim C5. -/

/-- Claim C5 (confirmed): on the balanced tokenized input BEGIN:A, BEGIN:B,
END:B, END:A the top-level parse yields exactly one node, a Container
named A whose only child is a Container named B with zero children, and no
END record appears as a child. -/
theorem C5_balanced_nesting :
    parse_records [⟨"BEGIN", [], "A"⟩, ⟨"BEGIN", [], "B"⟩,
        ⟨"END", [], "B"⟩, ⟨"END", [], "A"⟩] =
      .ok [.container "A" [.container "B" []]] := rfl

/-! Claim C3. -/

/-- Claim C3 (code bug): on a tokenized input whose BEGIN has no matching
END the code does NOT raise any error: the record stream is exhausted and
the truncated container is returned silently.  The claim (and section 9 of
the specification, which calls this a required fix) demands a
StructureError saying that the END for A is missing; this theorem
evaluates the code at the failing input and shows the silent
truncation. -/
theorem C3_unterminated_begin_truncates :
    parse_records [⟨"BEGIN", [], "A"⟩] = .ok [.container "A" []] := rfl

/-! Claim C2. -/

/-- Claim C2 counterexample: on BEGIN:A followed by END:B the parse fails
with a ParseError.  The code defines no StructureError class at all (its
only exception type is ParseError, raised by grammar failures and nesting
mismatches alike), so the claim that a StructureError is raised is false;
the message does report the expected and the actual name. -/
theorem C2_counterexample :
    parse_records [⟨"BEGIN", [], "A"⟩, ⟨"END", [], "B"⟩] =
      .error (.parseError "Expected END:A, got END:B") := rfl

/-- Claim C2 (corrected): while building a container, consuming an END
record whose value differs from the name of the container being closed
fails with a ParseError (the only exception type the code has) whose
message reports the expected name and the actual name. -/
theorem C2_end_mismatch (fuel : Nat) (name : String) (acc : List Node)
    (l : ContentLine) (rest : List ContentLine)
    (hn : l.name = "END") (hv : l.value ≠ name) :
    Container.parseF (fuel + 1) name acc (l :: rest) =
      .error (.parseError ("Expected END:" ++ name ++ ", got END:" ++ l.value)) := by
  simp [Container.parseF, hn, hv]

/-- Witness for C2_end_mismatch at BEGIN:A / END:B. -/
theorem C2_end_mismatch_witness :
    Container.parseF 1 "A" [] [⟨"END", [], "B"⟩] =
      .error (.parseError ("Expected END:" ++ "A" ++ ", got END:" ++ "B")) :=
  C2_end_mismatch 0 "A" [] ⟨"END", [], "B"⟩ [] rfl (by decide)

/-! Claim C6. -/

/-- Claim C6 (confirmed): parsing the logical line
haha;hihi=p3,p4,p5;hoho=p1,p2:blabla:blublu yields the record built by the
ContentLine constructor from name haha (stored uppercased, as the data
model prescribes), the ordered parameters hihi = p3,p4,p5 then
hoho = p1,p2 in encounter order, and the value blabla:blublu: only the
first top-level colon splits the name and parameters from the value, and
the second colon stays in the value verbatim. -/
theorem C6_first_colon_splits :
    ContentLine.parse "haha;hihi=p3,p4,p5;hoho=p1,p2:blabla:blublu" =
      .ok (ContentLine.init "haha"
        [("hihi", ["p3", "p4", "p5"]), ("hoho", ["p1", "p2"])] "blabla:blublu") := rfl

/-! Claim C8. -/

/-- Claim C8 (confirmed): parsing haha;p1: fails with ParseError.  The
parameter p1 has no equals sign, so the params loop backtracks to before
its semicolon and the required colon is then not found at the semicolon:
the grammar cannot match and ContentLine.parse raises ParseError carrying
the line. -/
theorem C8_bad_parameter_rejected :
    ContentLine.parse "haha;p1:" =
      .error (.parseError "Unable to parse haha;p1:") := rfl

/-! Claim C9. -/

/-- Claim C9 counterexample: a physical line consisting of a single tab is
tab-initial, and the accumulator is nonempty (the letter a), yet the line
does not terminate the current logical line and does not start a new one:
being all-whitespace it is skipped entirely by the blank-line check, which
runs before the continuation check.  The right-hand side is what the claim
asserts the unfolder does with a tab-initial line. -/
theorem C9_counterexample :
    unfold_lines ["\t"] "a" ≠ "a" :: unfold_lines [] (stripCR "\t") := by decide

/-- Claim C9 (corrected): a NON-BLANK physical line beginning with a tab is
never treated as a fold continuation: when the accumulator is nonempty it
terminates the current logical line, which is emitted, and starts a new
accumulator from the tab line (CR-stripped).  Blank tab lines are instead
skipped by the blank-line check. -/
theorem C9_tab_line_not_continuation (current l : String) (rest : List String)
    (hcur : current ≠ "") (hb : isBlank l = false)
    (ht : l.data.head? = some '\t') :
    unfold_lines (l :: rest) current = current :: unfold_lines rest (stripCR l) := by
  have ht2 : l.data.head? = some '\t' := ht
  have hsp : l.data.head? = some ' ' ↔ False := by rw [ht2]; simp
  simp [unfold_lines, hb, hcur, hsp]

/-- Witness for C9_tab_line_not_continuation. -/
theorem C9_tab_line_witness :
    unfold_lines ["\tY"] "X" = "X" :: unfold_lines [] (stripCR "\tY") :=
  C9_tab_line_not_continuation "X" "\tY" [] (by decide) (by decide) (by decide)

/-! Claim C10. -/

/-- Claim C10 (confirmed): two Containers whose child sequences compare
equal elementwise are equal regardless of their names: Container inherits
the list equality and defines none of its own, and that equality never
consults the name attribute. -/
theorem C10_container_eq_ignores_name (n1 n2 : String) (xs ys : List Node)
    (hl : xs.length = ys.length) (h : nodesEq xs ys = some true) :
    nodeEq (.container n1 xs) (.container n2 ys) = some true := by
  simp [nodeEq, hl, h]

/-- Witness for C10_container_eq_ignores_name: containers named A and B
with the same single child compare equal. -/
theorem C10_container_eq_witness :
    nodeEq (.container "A" [.line ⟨"SUMMARY", [], "s"⟩])
      (.container "B" [.line ⟨"SUMMARY", [], "s"⟩]) = some true :=
  C10_container_eq_ignores_name "A" "B" _ _ rfl rfl

/-! Claim C4 counterexample. -/

/-- Claim C4 counterexample: two records whose ordered parameter sequences
differ (the pairs are swapped) nevertheless compare equal, because
ContentLine.__eq__ converts the right operand to a plain dict, making the
parameter comparison order-insensitive.  The claim that records are equal
only if the ordered parameter mappings agree as sequences is therefore
false.  The repository test suite relies on this behavior: it expects
parsing haha;p2=v2;p1=v1: to equal a record whose parameters are listed in
the order p1, p2. -/
theorem C4_counterexample :
    ContentLine.eq ⟨"X", [("a", ["1"]), ("b", ["2"])], "v"⟩
        ⟨"X", [("b", ["2"]), ("a", ["1"])], "v"⟩ = true ∧
    ([("a", ["1"]), ("b", ["2"])] : List (String × List String)) ≠
      [("b", ["2"]), ("a", ["1"])] := by decide

/-! Claim C7 counterexample. -/

/-- Claim C7 counterexample: the input consisting of the single line
ab followed by a carriage return has no fold continuation and no blank
line, yet unfolding does not return it unchanged: the trailing carriage
return is stripped. -/
theorem C7_counterexample :
    noContinuation ["ab\r"] false = true ∧
    unfold_lines ["ab\r"] "" ≠ ["ab\r"].filter (fun l => !isBlank l) := by decide

/-! Claim C7. -/

theorem dropWhile_rev_nil {p : Char → Bool} {L : List Char}
    (h : ((L.dropWhile p).reverse.dropWhile p).reverse = []) :
    ∀ x ∈ L, p x = true := by
  have h3 : (L.dropWhile p).reverse.dropWhile p = [] := by
    simpa using congrArg List.reverse h
  have h4 := List.dropWhile_eq_nil_iff.mp h3
  intro x hx
  rw [← List.takeWhile_append_dropWhile p L] at hx
  rcases List.mem_append.mp hx with hx1 | hx2
  · exact List.mem_takeWhile_imp hx1
  · exact h4 x (List.mem_reverse.mpr hx2)

theorem stripCR_eq_nil_all {l : String} (he : stripCR l = "") :
    ∀ x ∈ l.data, x = '\r' := by
  have hL : ((l.data.dropWhile (fun c => decide (c = '\r'))).reverse.dropWhile
      (fun c => decide (c = '\r'))).reverse = [] := by
    have h0 := List.asString_eq.mp he
    simpa using h0
  intro x hx
  exact of_decide_eq_true (dropWhile_rev_nil hL x hx)

theorem stripCR_ne_empty {l : String} (h : isBlank l = false) : stripCR l ≠ "" := by
  intro he
  have hall := stripCR_eq_nil_all he
  have hbl : isBlank l = true := by
    rw [isBlank]
    apply List.all_eq_true.mpr
    intro x hx
    rw [hall x hx]
    decide
  rw [hbl] at h
  cases h

theorem noContinuation_blank_cons {l : String} {rest : List String} {seen : Bool}
    (hb : isBlank l = true) :
    noContinuation (l :: rest) seen = noContinuation rest seen := by
  simp [noContinuation, hb]

theorem noContinuation_nonblank_cons {l : String} {rest : List String}
    (hb : isBlank l = false) (h : noContinuation (l :: rest) true = true) :
    ¬(l.data.head? = some ' ') ∧ noContinuation rest true = true := by
  by_cases hs : l.data.head? = some ' '
  · rw [noContinuation] at h
    simp [hb, hs] at h
  · rw [noContinuation] at h
    simp [hb, hs] at h
    exact ⟨hs, h⟩

/-- Unfolding with a nonempty accumulator and no continuation line ahead
emits the accumulator first, then each nonblank line CR-stripped. -/
theorem unfold_lines_no_cont (ls : List String) :
    ∀ current : String, current ≠ "" → noContinuation ls true = true →
      unfold_lines ls current =
        current :: (ls.filter (fun l => !isBlank l)).map stripCR := by
  induction ls with
  | nil => intro c hc _; simp [unfold_lines, hc]
  | cons l rest ih =>
    intro c hc hnc
    cases hb : isBlank l with
    | true =>
      rw [noContinuation_blank_cons hb] at hnc
      simp [unfold_lines, hb, ih c hc hnc]
    | false =>
      obtain ⟨hsp, hnc2⟩ := noContinuation_nonblank_cons hb hnc
      have hspIff : l.data.head? = some ' ' ↔ False := iff_false_intro hsp
      simp [unfold_lines, hb, hc, hspIff,
        ih (stripCR l) (stripCR_ne_empty hb) hnc2]

/-- Claim C7 (corrected): unfolding a sequence with no fold continuation
returns it with the blank lines removed AND with leading and trailing
carriage returns stripped from every remaining line (the source applies
line.strip of the CR character to every line it keeps).  The original
claim, which promised the remaining lines back unchanged, is refuted by
C7_counterexample. -/
theorem C7_unfold_no_continuation (ls : List String)
    (h : noContinuation ls false = true) :
    unfold_lines ls "" = (ls.filter (fun l => !isBlank l)).map stripCR := by
  induction ls with
  | nil => rfl
  | cons l rest ih =>
    cases hb : isBlank l with
    | true =>
      rw [noContinuation_blank_cons hb] at h
      simp [unfold_lines, hb, ih h]
    | false =>
      have hnc2 : noContinuation rest true = true := by
        rw [noContinuation] at h
        simpa [hb] using h
      rw [unfold_lines]
      simp only [hb, Bool.false_eq_true, if_false, if_pos rfl]
      rw [unfold_lines_no_cont rest (stripCR l) (stripCR_ne_empty hb) hnc2]
      simp [hb]

/-- Witness for C7_unfold_no_continuation on a three-line input with a
blank line and a trailing CR. -/
theorem C7_unfold_witness :
    unfold_lines ["A:1", " ", "B:2\r"] "" =
      (["A:1", " ", "B:2\r"].filter (fun l => !isBlank l)).map stripCR :=
  C7_unfold_no_continuation ["A:1", " ", "B:2\r"] (by decide)

/-! Claim C4. -/

theorem mem_of_dictLookup : ∀ {xs : List (String × List String)} {k : String}
    {v : List String}, dictLookup k xs = some v → (k, v) ∈ xs := by
  intro xs
  induction xs with
  | nil => intro k v h; cases h
  | cons p rest ih =>
    intro k v h
    obtain ⟨k', v'⟩ := p
    by_cases hk : k' = k
    · rw [dictLookup, if_pos hk] at h
      cases h
      cases hk
      exact List.mem_cons_self _ _
    · rw [dictLookup, if_neg hk] at h
      exact List.mem_cons_of_mem _ (ih h)

theorem dictLookup_of_mem : ∀ {xs : List (String × List String)},
    (xs.map Prod.fst).Nodup → ∀ {k : String} {v : List String},
    (k, v) ∈ xs → dictLookup k xs = some v := by
  intro xs
  induction xs with
  | nil => intro _ k v hm; cases hm
  | cons p rest ih =>
    intro hn k v hm
    obtain ⟨k', v'⟩ := p
    simp only [List.map_cons, List.nodup_cons] at hn
    rcases List.mem_cons.mp hm with he | hm2
    · cases he
      rw [dictLookup, if_pos rfl]
    · have hk : k' ≠ k := by
        intro hkk
        subst hkk
        exact hn.1 (List.mem_map.mpr ⟨(k', v), hm2, rfl⟩)
      rw [dictLookup, if_neg hk]
      exact ih hn.2 hm2

/-- Python dict equality of two duplicate-free association lists holds
exactly when the lists are permutations of each other, that is when they
are equal as unordered key-to-value mappings. -/
theorem dictEq_iff_perm {xs ys : List (String × List String)}
    (hx : (xs.map Prod.fst).Nodup) (hy : (ys.map Prod.fst).Nodup) :
    dictEq xs ys = true ↔ xs.Perm ys := by
  constructor
  · intro h
    rw [dictEq, Bool.and_eq_true] at h
    obtain ⟨h1, h2⟩ := h
    have h1' := List.all_eq_true.mp h1
    have h2' := List.all_eq_true.mp h2
    refine (List.perm_ext_iff_of_nodup (List.Nodup.of_map _ hx)
      (List.Nodup.of_map _ hy)).mpr ?_
    intro a
    constructor
    · intro ha
      have hb := eq_of_beq (h1' a ha)
      simpa using mem_of_dictLookup hb
    · intro ha
      have hb := eq_of_beq (h2' a ha)
      simpa using mem_of_dictLookup hb
  · intro hper
    rw [dictEq, Bool.and_eq_true]
    constructor
    · apply List.all_eq_true.mpr
      intro p hp
      have hp2 : (p.1, p.2) ∈ ys := by simpa using hper.mem_iff.mp hp
      simp [dictLookup_of_mem hy hp2]
    · apply List.all_eq_true.mpr
      intro p hp
      have hp2 : (p.1, p.2) ∈ xs := by simpa using hper.mem_iff.mpr hp
      simp [dictLookup_of_mem hx hp2]

/-- Claim C4 (corrected): for records whose parameter keys are
duplicate-free (always the case for dict-backed records), two
ContentLines are equal if and only if their names and values agree and
their parameter mappings are equal as UNORDERED mappings, i.e. are
permutations of each other.  Parameter insertion order is NOT part of the
equality (see C4_counterexample): ContentLine.__eq__ compares the
parameters through a plain dict. -/
theorem C4_record_equality (a b : ContentLine)
    (ha : (a.params.map Prod.fst).Nodup) (hb : (b.params.map Prod.fst).Nodup) :
    ContentLine.eq a b = true ↔
      a.name = b.name ∧ a.params.Perm b.params ∧ a.value = b.value := by
  rw [ContentLine.eq, Bool.and_eq_true, Bool.and_eq_true, beq_iff_eq,
    beq_iff_eq, dictEq_iff_perm ha hb]
  tauto

/-- Witness for C4_record_equality: records with swapped parameter pairs
compare equal. -/
theorem C4_record_equality_witness :
    ContentLine.eq ⟨"Y", [("p1", ["v1"]), ("p2", ["v2"])], "w"⟩
      ⟨"Y", [("p2", ["v2"]), ("p1", ["v1"])], "w"⟩ = true :=
  (C4_record_equality _ _ (by decide) (by decide)).mpr ⟨rfl, by decide, rfl⟩

/-! Claim C1 counterexample. -/

/-- Claim C1 counterexample: the record with one parameter P whose single
value is the three characters a comma b, and the empty value string,
satisfies the claim hypothesis (no raw colon, semicolon or quote appears
in any parameter value or in the value), but rendering and re-tokenizing
it yields a record with TWO parameter values a and b, not equal to the
original: the comma is the value-list delimiter of the grammar and is not
escaped by the serializer. -/
theorem C1_counterexample :
    (∀ c ∈ ("a,b".data ++ "".data), ¬(c = ':' ∨ c = ';' ∨ c = '"')) ∧
    tokenize_line [ContentLine.render ⟨"NAME", [("P", ["a,b"])], ""⟩] =
      .ok [⟨"NAME", [("P", ["a", "b"])], ""⟩] ∧
    ContentLine.eq ⟨"NAME", [("P", ["a", "b"])], ""⟩
      ⟨"NAME", [("P", ["a,b"])], ""⟩ = false := by
  refine ⟨by decide, rfl, by decide⟩

/-! Claim C1: the round trip.  The remaining lemmas show that rendering a
well-shaped record and parsing the result reproduces the record. -/

theorem joinCommaL_cons (vs : List String) :
    ∀ v : String, joinCommaL (v :: vs) = v.data ++ moreValsL vs := by
  induction vs with
  | nil => intro v; simp [joinCommaL, moreValsL]
  | cons w ws ih =>
    intro v
    have h0 : joinCommaL (v :: w :: ws) = v.data ++ ',' :: joinCommaL (w :: ws) := rfl
    rw [h0, ih w, moreValsL]
    simp

theorem joinComma_data (vs : List String) : (joinComma vs).data = joinCommaL vs := by
  induction vs with
  | nil => rfl
  | cons v ws ih =>
    cases ws with
    | nil => rfl
    | cons w ws2 =>
      have h0 : joinCommaL (v :: w :: ws2) = v.data ++ ',' :: joinCommaL (w :: ws2) := rfl
      have h1 : joinComma (v :: w :: ws2) = v ++ "," ++ joinComma (w :: ws2) := rfl
      rw [h1, h0]
      simp only [String.data_append, ih]
      simp

theorem paramsStr_data (ps : List (String × List String)) :
    (paramsStr ps).data = paramsStrL ps := by
  induction ps with
  | nil => rfl
  | cons p ps ih =>
    rw [paramsStr, paramsStrL]
    simp only [String.data_append, ih, joinComma_data]
    simp

theorem render_data (r : ContentLine) :
    (ContentLine.render r).data =
      r.name.data ++ paramsStrL r.params ++ ':' :: r.value.data := by
  rw [ContentLine.render]
  simp only [String.data_append, paramsStr_data]
  simp

theorem goodWordB_parts {t : List Char} (ht : goodWordB t = true) :
    t ≠ [] ∧ (∀ c ∈ t, wordCharCL c = true) ∧
      (∀ c, t.head? = some c → ppWhite c = false) := by
  rw [goodWordB, Bool.and_eq_true, Bool.and_eq_true] at ht
  obtain ⟨⟨h1, h2⟩, h3⟩ := ht
  refine ⟨?_, List.all_eq_true.mp h2, ?_⟩
  · intro he
    subst he
    simp at h1
  · intro c hc
    cases t with
    | nil => cases hc
    | cons a t' =>
      cases hc
      rw [headNotWhite] at h3
      simpa using h3

theorem parseWordCL_spec {t rest : List Char} (ht : goodWordB t = true)
    (hr : ∀ c, rest.head? = some c → wordCharCL c = false) :
    parseWordCL (t ++ rest) = some (t, rest) := by
  obtain ⟨hne, hall, hhead⟩ := goodWordB_parts ht
  cases t with
  | nil => exact absurd rfl hne
  | cons a t' =>
    have hw : ppWhite a = false := hhead a rfl
    have hd : ((a :: t') ++ rest).dropWhile ppWhite = (a :: t') ++ rest := by
      simp [List.dropWhile_cons, hw]
    have htk : ((a :: t') ++ rest).takeWhile wordCharCL = a :: t' :=
      takeWhile_append_all hall hr
    have hdw : ((a :: t') ++ rest).dropWhile wordCharCL = rest :=
      dropWhile_append_all hall hr
    rw [parseWordCL]
    simp only [hd, htk, hdw]
    simp

theorem parseQuotedCL_word_none {t rest : List Char} (ht : goodWordB t = true) :
    parseQuotedCL (t ++ rest) = none := by
  obtain ⟨hne, hall, hhead⟩ := goodWordB_parts ht
  cases t with
  | nil => exact absurd rfl hne
  | cons a t' =>
    have hw : ppWhite a = false := hhead a rfl
    have hq : a ≠ '"' := by
      intro he
      subst he
      have := hall '"' (List.mem_cons_self _ _)
      simp [wordCharCL] at this
    have hd : ((a :: t') ++ rest).dropWhile ppWhite = a :: (t' ++ rest) := by
      simp [List.dropWhile_cons, hw]
    rw [parseQuotedCL, hd]
    simp [hq]

theorem parseParamValue_spec {t rest : List Char} (ht : goodWordB t = true)
    (hr : ∀ c, rest.head? = some c → wordCharCL c = false) :
    parseParamValue (t ++ rest) = some (t, rest) := by
  rw [parseParamValue, parseQuotedCL_word_none ht, parseWordCL_spec ht hr]

theorem valuesLoop_spec (vs : List String) :
    ∀ (fuel : Nat) (rest : List Char) (acc : List (List Char)),
      vs.length < fuel →
      (∀ v ∈ vs, goodWordB v.data = true) →
      (∀ c, rest.head? = some c →
        ppWhite c = false ∧ wordCharCL c = false ∧ c ≠ ',') →
      valuesLoop fuel (moreValsL vs ++ rest) acc =
        (acc.reverse ++ vs.map String.data, rest) := by
  induction vs with
  | nil =>
    intro fuel rest acc _ _ hr
    simp only [moreValsL, List.nil_append, List.map_nil, List.append_nil]
    cases fuel with
    | zero => rfl
    | succ f =>
      rw [valuesLoop]
      have hd : rest.dropWhile ppWhite = rest :=
        dropWhile_head_false (fun c hc => (hr c hc).1)
      rw [hd]
      cases rest with
      | nil => rfl
      | cons c r => simp [(hr c rfl).2.2]
  | cons v vs ih =>
    intro fuel rest acc hf hg hr
    cases fuel with
    | zero => exact absurd hf (Nat.not_lt_zero _)
    | succ f =>
      have hshape : moreValsL (v :: vs) ++ rest =
          ',' :: (v.data ++ (moreValsL vs ++ rest)) := by
        rw [moreValsL]
        simp
      rw [hshape, valuesLoop]
      have hd : (',' :: (v.data ++ (moreValsL vs ++ rest))).dropWhile ppWhite
          = ',' :: (v.data ++ (moreValsL vs ++ rest)) := by
        simp [List.dropWhile_cons, show ppWhite ',' = false from rfl]
      rw [hd]
      have hpv : parseParamValue (v.data ++ (moreValsL vs ++ rest)) =
          some (v.data, moreValsL vs ++ rest) := by
        apply parseParamValue_spec (hg v (List.mem_cons_self _ _))
        intro c hc
        cases vs with
        | nil =>
          simp only [moreValsL, List.nil_append] at hc
          exact (hr c hc).2.1
        | cons w ws =>
          have hhd : (moreValsL (w :: ws) ++ rest).head? = some ',' := by
            rw [moreValsL]
            simp
          rw [hhd] at hc
          have hc2 : c = ',' := (Option.some_inj.mp hc).symm
          subst hc2
          decide
      simp only [if_pos rfl, hpv]
      have hf2 : vs.length < f := by
        simp only [List.length_cons] at hf
        omega
      rw [ih f rest (v.data :: acc) hf2
        (fun w hw => hg w (List.mem_cons_of_mem _ hw)) hr]
      simp

theorem moreVals_head_sep (vs : List String) (rest : List Char)
    (hr : ∀ c, rest.head? = some c → wordCharCL c = false) :
    ∀ c, (moreValsL vs ++ rest).head? = some c → wordCharCL c = false := by
  intro c hc
  cases vs with
  | nil =>
    simp only [moreValsL, List.nil_append] at hc
    exact hr c hc
  | cons w ws =>
    have hhd : (moreValsL (w :: ws) ++ rest).head? = some ',' := by
      rw [moreValsL]
      simp
    rw [hhd] at hc
    have hc2 : c = ',' := (Option.some_inj.mp hc).symm
    subst hc2
    decide

theorem parseParam_spec (k : String) (vs : List String) (fuel : Nat)
    (rest : List Char)
    (hk : goodWordB k.data = true) (hvs : vs ≠ [])
    (hg : ∀ v ∈ vs, goodWordB v.data = true)
    (hfuel : vs.length ≤ fuel)
    (hr : ∀ c, rest.head? = some c →
      ppWhite c = false ∧ wordCharCL c = false ∧ c ≠ ',') :
    parseParam fuel (k.data ++ ('=' :: (joinCommaL vs ++ rest))) =
      some ((k.data, vs.map String.data), rest) := by
  obtain ⟨v, vs2, rfl⟩ : ∃ v vs2, vs = v :: vs2 := by
    cases vs with
    | nil => exact absurd rfl hvs
    | cons v vs2 => exact ⟨v, vs2, rfl⟩
  have hword : parseWordCL (k.data ++ ('=' :: (joinCommaL (v :: vs2) ++ rest))) =
      some (k.data, '=' :: (joinCommaL (v :: vs2) ++ rest)) := by
    apply parseWordCL_spec hk
    intro c hc
    have hc2 : c = '=' := (Option.some_inj.mp hc).symm
    subst hc2
    decide
  have hj : joinCommaL (v :: vs2) ++ rest = v.data ++ (moreValsL vs2 ++ rest) := by
    rw [joinCommaL_cons]
    simp
  have hd : ('=' :: (v.data ++ (moreValsL vs2 ++ rest))).dropWhile ppWhite =
      '=' :: (v.data ++ (moreValsL vs2 ++ rest)) := by
    simp [List.dropWhile_cons, show ppWhite '=' = false from rfl]
  have hpv : parseParamValue (v.data ++ (moreValsL vs2 ++ rest)) =
      some (v.data, moreValsL vs2 ++ rest) :=
    parseParamValue_spec (hg v (List.mem_cons_self _ _))
      (moreVals_head_sep vs2 rest (fun c hc => (hr c hc).2.1))
  have hvl := valuesLoop_spec vs2 fuel rest []
    (by simp only [List.length_cons] at hfuel; omega)
    (fun w hw => hg w (List.mem_cons_of_mem _ hw)) hr
  rw [parseParam, hword]
  simp only [hj, hd, hpv, hvl]
  simp

theorem paramsLoop_spec (ps : List (String × List String)) :
    ∀ (fuel : Nat) (rest : List Char)
      (acc : List (List Char × List (List Char))),
      weight ps < fuel →
      (∀ p ∈ ps, goodWordB p.1.data = true ∧ p.2 ≠ [] ∧
        ∀ v ∈ p.2, goodWordB v.data = true) →
      (∀ c, rest.head? = some c →
        ppWhite c = false ∧ wordCharCL c = false ∧ c ≠ ',' ∧ c ≠ ';') →
      paramsLoop fuel (paramsStrL ps ++ rest) acc =
        (acc.reverse ++ ps.map (fun p => (p.1.data, p.2.map String.data)), rest) := by
  induction ps with
  | nil =>
    intro fuel rest acc _ _ hr
    simp only [paramsStrL, List.nil_append, List.map_nil, List.append_nil]
    cases fuel with
    | zero => rfl
    | succ f =>
      rw [paramsLoop]
      have hd : rest.dropWhile ppWhite = rest :=
        dropWhile_head_false (fun c hc => (hr c hc).1)
      rw [hd]
      cases rest with
      | nil => rfl
      | cons c r => simp [(hr c rfl).2.2.2]
  | cons p ps ih =>
    intro fuel rest acc hf hg hr
    obtain ⟨k, vs⟩ := p
    cases fuel with
    | zero => exact absurd hf (Nat.not_lt_zero _)
    | succ f =>
      have hshape : paramsStrL ((k, vs) :: ps) ++ rest =
          ';' :: (k.data ++ ('=' :: (joinCommaL vs ++ (paramsStrL ps ++ rest)))) := by
        rw [paramsStrL]
        simp
      rw [hshape, paramsLoop]
      have hd : (';' :: (k.data ++ ('=' :: (joinCommaL vs ++
          (paramsStrL ps ++ rest))))).dropWhile ppWhite =
          ';' :: (k.data ++ ('=' :: (joinCommaL vs ++ (paramsStrL ps ++ rest)))) := by
        simp [List.dropWhile_cons, show ppWhite ';' = false from rfl]
      rw [hd]
      obtain ⟨hk, hvs, hvg⟩ := hg (k, vs) (List.mem_cons_self _ _)
      have hrest2 : ∀ c, (paramsStrL ps ++ rest).head? = some c →
          ppWhite c = false ∧ wordCharCL c = false ∧ c ≠ ',' := by
        intro c hc
        cases ps with
        | nil =>
          simp only [paramsStrL, List.nil_append] at hc
          exact ⟨(hr c hc).1, (hr c hc).2.1, (hr c hc).2.2.1⟩
        | cons q qs =>
          have hhd : (paramsStrL (q :: qs) ++ rest).head? = some ';' := by
            rw [paramsStrL]
            simp
          rw [hhd] at hc
          have hc2 : c = ';' := (Option.some_inj.mp hc).symm
          subst hc2
          refine ⟨by decide, by decide, by decide⟩
      have hfw : vs.length ≤ f ∧ weight ps < f := by
        have hf2 : 1 + vs.length + weight ps < f + 1 := by
          simpa [weight] using hf
        omega
      have hpp := parseParam_spec k vs f (paramsStrL ps ++ rest) hk hvs hvg
        hfw.1 hrest2
      simp only [if_pos rfl, hpp]
      rw [ih f rest ((k.data, vs.map String.data) :: acc) hfw.2
        (fun q hq => hg q (List.mem_cons_of_mem _ hq)) hr]
      simp

theorem lineParse_unnamed (v : String) (fuel : Nat)
    (hv : headNotWhite v.data = true) :
    lineParse fuel (':' :: v.data) = some (none, v.data) := by
  have hword : parseWordCL (':' :: v.data) = none := by
    rw [parseWordCL]
    have hd : (':' :: v.data).dropWhile ppWhite = ':' :: v.data := by
      simp [List.dropWhile_cons, show ppWhite ':' = false from rfl]
    simp [hd, List.takeWhile_cons, show wordCharCL ':' = false from rfl]
  have hec : expectColon (':' :: v.data) = some v.data := by
    rw [expectColon]
    have hd : (':' :: v.data).dropWhile ppWhite = ':' :: v.data := by
      simp [List.dropWhile_cons, show ppWhite ':' = false from rfl]
    simp [hd]
  have hvd : v.data.dropWhile ppWhite = v.data := by
    apply dropWhile_head_false
    intro c hc
    cases hv2 : v.data with
    | nil => rw [hv2] at hc; cases hc
    | cons a l =>
      rw [hv2] at hc
      have ha : a = c := Option.some_inj.mp hc
      have hw : headNotWhite (a :: l) = !ppWhite a := rfl
      rw [hv2, hw] at hv
      subst ha
      simpa using hv
  rw [lineParse, hword, hec]
  simp only [hvd]

theorem lineParse_named (n : String) (ps : List (String × List String))
    (v : String) (fuel : Nat)
    (hn : goodWordB n.data = true)
    (hg : ∀ p ∈ ps, goodWordB p.1.data = true ∧ p.2 ≠ [] ∧
      ∀ w ∈ p.2, goodWordB w.data = true)
    (hfuel : weight ps < fuel)
    (hv : headNotWhite v.data = true) :
    lineParse fuel (n.data ++ (paramsStrL ps ++ (':' :: v.data))) =
      some (some (n.data, ps.map (fun p => (p.1.data, p.2.map String.data))),
        v.data) := by
  have hword : parseWordCL (n.data ++ (paramsStrL ps ++ (':' :: v.data))) =
      some (n.data, paramsStrL ps ++ (':' :: v.data)) := by
    apply parseWordCL_spec hn
    intro c hc
    cases ps with
    | nil =>
      simp only [paramsStrL, List.nil_append, List.head?_cons] at hc
      have hc2 : c = ':' := (Option.some_inj.mp hc).symm
      subst hc2
      decide
    | cons q qs =>
      have hhd : (paramsStrL (q :: qs) ++ (':' :: v.data)).head? = some ';' := by
        rw [paramsStrL]
        simp
      rw [hhd] at hc
      have hc2 : c = ';' := (Option.some_inj.mp hc).symm
      subst hc2
      decide
  have hcolon : ∀ c, (':' :: v.data).head? = some c →
      ppWhite c = false ∧ wordCharCL c = false ∧ c ≠ ',' ∧ c ≠ ';' := by
    intro c hc
    have hc2 : c = ':' := (Option.some_inj.mp hc).symm
    subst hc2
    refine ⟨by decide, by decide, by decide, by decide⟩
  have hps := paramsLoop_spec ps fuel (':' :: v.data) [] hfuel hg hcolon
  have hec : expectColon (':' :: v.data) = some v.data := by
    rw [expectColon]
    have hd : (':' :: v.data).dropWhile ppWhite = ':' :: v.data := by
      simp [List.dropWhile_cons, show ppWhite ':' = false from rfl]
    simp [hd]
  have hvd : v.data.dropWhile ppWhite = v.data := by
    apply dropWhile_head_false
    intro c hc
    cases hv2 : v.data with
    | nil => rw [hv2] at hc; cases hc
    | cons a l =>
      rw [hv2] at hc
      have ha : a = c := Option.some_inj.mp hc
      have hw : headNotWhite (a :: l) = !ppWhite a := rfl
      rw [hv2, hw] at hv
      subst ha
      simpa using hv
  rw [lineParse, hword]
  simp only [hps, hec, hvd]
  simp

theorem map_data_asString (vs : List String) :
    (vs.map String.data).map List.asString = vs := by
  induction vs with
  | nil => rfl
  | cons w ws ih =>
    simp only [List.map_cons, ih]
    rfl

theorem params_map_data_asString (ps : List (String × List String)) :
    (ps.map (fun p => (p.1.data, p.2.map String.data))).map
      (fun p => (p.1.asString, p.2.map List.asString)) = ps := by
  induction ps with
  | nil => rfl
  | cons p ps ih =>
    simp only [List.map_cons, ih, map_data_asString]
    rfl

theorem odOfList_aux (ps : List (String × List String)) :
    ∀ acc : List (String × List String),
      ((acc ++ ps).map Prod.fst).Nodup →
      ps.foldl (fun m p => odInsert m p.1 p.2) acc = acc ++ ps := by
  induction ps with
  | nil => intro acc _; simp
  | cons p ps ih =>
    intro acc hn
    have hnotin : acc.any (fun q => q.1 == p.1) = false := by
      cases hany : acc.any (fun q => q.1 == p.1) with
      | false => rfl
      | true =>
        rcases List.any_eq_true.mp hany with ⟨q, hq, hqe⟩
        have hqp : q.1 = p.1 := by simpa using hqe
        have hd := (List.nodup_append.mp (by simpa using hn)).2.2
        exact absurd (by simp : p.1 ∈ (p :: ps).map Prod.fst)
          (hd (by rw [← hqp]; exact List.mem_map.mpr ⟨q, hq, rfl⟩))
    rw [List.foldl_cons]
    have hstep : odInsert acc p.1 p.2 = acc ++ [p] := by
      rw [odInsert, if_neg (by simp [hnotin])]
    rw [hstep, ih (acc ++ [p]) (by simpa using hn)]
    simp

theorem odOfList_id {ps : List (String × List String)}
    (h : (ps.map Prod.fst).Nodup) : odOfList ps = ps := by
  have := odOfList_aux ps [] (by simpa using h)
  simpa [odOfList] using this

theorem pyRstrip_id {l : List Char} (h : lastNotRstrip l = true) :
    pyRstrip l = l := by
  rw [pyRstrip]
  have hd : l.reverse.dropWhile rstripChar = l.reverse := by
    apply dropWhile_head_false
    intro c hc
    rw [List.head?_reverse] at hc
    have h2 : lastNotRstrip l =
        match l.getLast? with
        | none => true
        | some c => !rstripChar c := rfl
    rw [h2, hc] at h
    simpa using h
  rw [hd, List.reverse_reverse]

theorem moreValsL_length (vs : List String) :
    vs.length ≤ (moreValsL vs).length := by
  induction vs with
  | nil => simp [moreValsL]
  | cons v vs ih =>
    rw [moreValsL]
    simp only [List.length_cons, List.length_append]
    omega

theorem length_joinCommaL_ge (vs : List String) :
    vs.length ≤ (joinCommaL vs).length + 1 := by
  cases vs with
  | nil => simp
  | cons v vs =>
    rw [joinCommaL_cons]
    have h2 := moreValsL_length vs
    simp only [List.length_cons, List.length_append]
    omega

theorem weight_le_paramsStrL (ps : List (String × List String)) :
    weight ps ≤ (paramsStrL ps).length := by
  induction ps with
  | nil => simp [weight, paramsStrL]
  | cons p ps ih =>
    rw [weight, paramsStrL]
    have h1 := length_joinCommaL_ge p.2
    simp only [List.length_cons, List.length_append]
    omega

theorem dictEq_refl {ps : List (String × List String)}
    (h : (ps.map Prod.fst).Nodup) : dictEq ps ps = true :=
  (dictEq_iff_perm h h).mpr (List.Perm.refl _)

/-- Claim C1 (corrected): the round trip holds for every record whose
serialization re-tokenizes losslessly: the name is either empty with no
parameters or an uppercase word-charset run not starting with skippable
whitespace, the parameter names are distinct word runs, every parameter
value list is nonempty and its values are word runs (hence free of raw
colon, semicolon, COMMA, equals and quote characters, the comma being the
exclusion the original claim is missing, see C1_counterexample), and the
value neither begins with skippable whitespace nor ends in a character the
parser right-strips.  Tokenizing the rendered line yields exactly one
record, equal to the original both structurally and under the defined
record equality. -/
theorem C1_round_trip (r : ContentLine)
    (hname : (r.name = "" ∧ r.params = []) ∨
      (goodWordB r.name.data = true ∧ pyUpper r.name = r.name))
    (hps : ∀ p ∈ r.params, goodWordB p.1.data = true ∧ p.2 ≠ [] ∧
      ∀ v ∈ p.2, goodWordB v.data = true)
    (hkeys : (r.params.map Prod.fst).Nodup)
    (hv1 : headNotWhite r.value.data = true)
    (hv2 : lastNotRstrip r.value.data = true) :
    tokenize_line [r.render] = .ok [r] ∧ ContentLine.eq r r = true := by
  obtain ⟨nm, ps, vl⟩ := r
  refine ⟨?_, ?_⟩
  case refine_2 =>
    simp only [ContentLine.eq]
    simp [dictEq_refl hkeys]
  case refine_1 =>
    suffices hparse : ContentLine.parse (ContentLine.render ⟨nm, ps, vl⟩) =
        .ok ⟨nm, ps, vl⟩ by
      rw [tokenize_line, hparse, tokenize_line]
    have hcontains : pyContains (ContentLine.render ⟨nm, ps, vl⟩) ':' = true := by
      have hmem : ':' ∈ (ContentLine.render ⟨nm, ps, vl⟩).data := by
        rw [render_data]
        simp
      exact List.elem_eq_true_of_mem hmem
    rw [ContentLine.parse]
    simp only [hcontains, Bool.not_true, Bool.false_eq_true, if_false]
    rcases hname with ⟨hn0, hp0⟩ | ⟨hng, hnu⟩
    · simp only at hn0 hp0
      subst hn0
      subst hp0
      dsimp only at hv1 hv2
      have hrl : (ContentLine.render ⟨"", [], vl⟩).data = ':' :: vl.data := by
        rw [render_data]
        rfl
      rw [hrl, lineParse_unnamed vl _ hv1]
      dsimp only
      rw [pyRstrip_id hv2]
      rfl
    · simp only at hng hnu hps hkeys hv1 hv2
      have hrl : (ContentLine.render ⟨nm, ps, vl⟩).data =
          nm.data ++ (paramsStrL ps ++ (':' :: vl.data)) := by
        rw [render_data]
        simp
      have hfuel : weight ps <
          (nm.data ++ (paramsStrL ps ++ (':' :: vl.data))).length + 1 := by
        have h1 := weight_le_paramsStrL ps
        simp only [List.length_append, List.length_cons]
        omega
      rw [hrl, lineParse_named nm ps vl _ hng hps hfuel hv1]
      dsimp only
      rw [pyRstrip_id hv2]
      have hparams : odOfList
          ((ps.map (fun p => (p.1.data, p.2.map String.data))).map
            (fun p => (p.1.asString, p.2.map List.asString))) = ps := by
        rw [params_map_data_asString]
        exact odOfList_id hkeys
      rw [hparams]
      have hinit : ContentLine.init nm.data.asString ps vl.data.asString =
          ⟨nm, ps, vl⟩ := by
        simp only [ContentLine.init]
        have h2 : pyUpper nm.data.asString = nm := hnu
        rw [h2]
        rfl
      rw [hinit]

/-- Witness for C1_round_trip at the record DTSTART with parameter TZID
equal to Europe/Brussels and value 20131029T103000 (a line of the
repository test suite). -/
theorem C1_round_trip_witness :
    tokenize_line [ContentLine.render
        ⟨"DTSTART", [("TZID", ["Europe/Brussels"])], "20131029T103000"⟩] =
      .ok [⟨"DTSTART", [("TZID", ["Europe/Brussels"])], "20131029T103000"⟩] ∧
    ContentLine.eq
      ⟨"DTSTART", [("TZID", ["Europe/Brussels"])], "20131029T103000"⟩
      ⟨"DTSTART", [("TZID", ["Europe/Brussels"])], "20131029T103000"⟩ = true :=
  C1_round_trip ⟨"DTSTART", [("TZID", ["Europe/Brussels"])], "20131029T103000"⟩
    (Or.inr ⟨by decide, by decide⟩) (by decide) (by decide) (by decide) (by decide)

end IcsParse
